import Mathlib

/-!
Verification of the value-semantics kernel of the `dataclasses` TypeScript
library (`src/lib/utils.ts` and the `DataClass` glue in `src/lib/dataclass.ts`).

The kernel operates on JavaScript value graphs whose leaves are primitives
(string, number, boolean, null, undefined) and whose internal nodes are
arrays (ordered sequences) or plain objects (string-keyed mappings).

Two embeddings are used:

* a pure tree embedding `Val` for the acyclic fragment: `deepEqual`,
  `stableStringify`, `hashCode`, `mergeDeep`, `compareByKeys`,
  `Object.assign`-based creation; reference sharing in an acyclic graph is
  unobservable to these functions (the `seen` set of `stableStringify` never
  fires on an acyclic graph because membership is removed on return), so the
  tree embedding is extensionally faithful on acyclic inputs;
* a heap embedding (`GVal`/`HNode`/`Heap`) with explicit node identities and
  fuel, for the claims that concern reference cycles, freshness of allocated
  nodes, and in-place mutation (`stableStringify`'s cycle detection, deep
  clone independence, the non-mutating copy path).

Numbers are modelled as integers (the library's records hold integral data;
no claim depends on non-integral floats), strings as Lean strings with
UTF-16 code units identified with code points on the BMP fragment.
-/

namespace Dataclasses

/-- Decimal digits of a natural number, most significant first; the fuel is
structural so that the kernel can evaluate it. -/
def natStrAux (fuel n : Nat) (acc : List Char) : List Char :=
  match fuel with
  | 0 => acc
  | f + 1 =>
    if n < 10 then Char.ofNat (48 + n) :: acc
    else natStrAux f (n / 10) (Char.ofNat (48 + n % 10) :: acc)

/-- Decimal rendering of a natural number (the `JSON.stringify` form of a
non-negative integral JavaScript number). -/
def natStr (n : Nat) : String :=
  ⟨natStrAux (n + 1) n []⟩

/-- `JSON.stringify` rendering of an integral JavaScript number. -/
def intStr (n : Int) : String :=
  if n < 0 then "-" ++ natStr n.natAbs else natStr n.natAbs

/-- Lower-case hexadecimal digit, as used in `\u00XX` escapes. -/
def hexDigit (n : Nat) : Char :=
  if n < 10 then Char.ofNat (48 + n) else Char.ofNat (87 + n)

/-- The escape sequence `JSON.stringify` emits for one character of a string. -/
def escapeChar (c : Char) : List Char :=
  if c = '"' then ['\\', '"']
  else if c = '\\' then ['\\', '\\']
  else if c.toNat = 8 then ['\\', 'b']
  else if c.toNat = 9 then ['\\', 't']
  else if c.toNat = 10 then ['\\', 'n']
  else if c.toNat = 12 then ['\\', 'f']
  else if c.toNat = 13 then ['\\', 'r']
  else if c.toNat < 32 then
    ['\\', 'u', '0', '0', hexDigit (c.toNat / 16), hexDigit (c.toNat % 16)]
  else [c]

/-- `JSON.stringify` of a JavaScript string: double quotes around the escaped
character sequence. -/
def jsonQuote (s : String) : String :=
  ⟨'"' :: s.data.foldr (fun c acc => escapeChar c ++ acc) ['"']⟩

/-- The acyclic JavaScript value graphs the kernel operates on. -/
inductive Val : Type where
  | null : Val
  | undef : Val
  | bool : Bool → Val
  | num : Int → Val
  | str : String → Val
  | arr : List Val → Val
  | obj : List (String × Val) → Val
deriving Repr

mutual

/-- Structural equality test on values (JS `===` restricted to this model's
value domain; used where the kernel compares primitives). -/
def Val.beq : Val → Val → Bool
  | .null, .null => true
  | Val.undef, Val.undef => true
  | .bool a, .bool b => a == b
  | .num a, .num b => a == b
  | .str a, .str b => a == b
  | .arr xs, .arr ys => Val.beqList xs ys
  | .obj fs, .obj gs => Val.beqFields fs gs
  | _, _ => false

def Val.beqList : List Val → List Val → Bool
  | [], [] => true
  | x :: xs, y :: ys => Val.beq x y && Val.beqList xs ys
  | _, _ => false

def Val.beqFields : List (String × Val) → List (String × Val) → Bool
  | [], [] => true
  | (k, v) :: fs, (l, w) :: gs => k == l && Val.beq v w && Val.beqFields fs gs
  | _, _ => false

end

mutual

theorem Val.beq_iff : ∀ a b : Val, Val.beq a b = true ↔ a = b
  | .null, b => by cases b <;> simp [Val.beq]
  | Val.undef, b => by cases b <;> simp [Val.beq]
  | .bool a, b => by cases b <;> simp [Val.beq]
  | .num a, b => by cases b <;> simp [Val.beq]
  | .str a, b => by cases b <;> simp [Val.beq]
  | .arr xs, b => by
    cases b <;> simp [Val.beq]
    exact Val.beqList_iff xs _
  | .obj fs, b => by
    cases b <;> simp [Val.beq]
    exact Val.beqFields_iff fs _

theorem Val.beqList_iff : ∀ xs ys : List Val, Val.beqList xs ys = true ↔ xs = ys
  | [], ys => by cases ys <;> simp [Val.beqList]
  | x :: xs, ys => by
    cases ys with
    | nil => simp [Val.beqList]
    | cons y ys =>
      simp only [Val.beqList, Bool.and_eq_true, List.cons.injEq]
      rw [Val.beq_iff x y, Val.beqList_iff xs ys]

theorem Val.beqFields_iff :
    ∀ fs gs : List (String × Val), Val.beqFields fs gs = true ↔ fs = gs
  | [], gs => by cases gs <;> simp [Val.beqFields]
  | (k, v) :: fs, gs => by
    cases gs with
    | nil => simp [Val.beqFields]
    | cons p gs =>
      rcases p with ⟨l, w⟩
      simp only [Val.beqFields, Bool.and_eq_true, List.cons.injEq, Prod.mk.injEq,
        beq_iff_eq]
      rw [Val.beq_iff v w, Val.beqFields_iff fs gs]

end

instance : DecidableEq Val := fun a b =>
  decidable_of_iff (Val.beq a b = true) (Val.beq_iff a b)

/-- `isPrimitive` from `utils.ts`: `value == null` or one of the primitive
`typeof` tags (string, number, boolean, symbol, bigint). -/
def isPrim : Val → Bool
  | .null => true
  | Val.undef => true
  | .bool _ => true
  | .num _ => true
  | .str _ => true
  | .arr _ => false
  | .obj _ => false

/-- The own enumerable properties of a JavaScript array: its indices rendered
as strings, paired with the elements (this is what `Object.keys` sees when the
generic object branch of `deepEqual` receives an array). -/
def arrFields (xs : List Val) : List (String × Val) :=
  ((List.range xs.length).map natStr).zip xs

/-- `Object.keys` of a modelled value. -/
def keysOf : Val → List String
  | .obj fs => fs.map Prod.fst
  | .arr xs => (List.range xs.length).map natStr
  | _ => []

/-- Property access `v[k]`: `undefined` when the key is absent. -/
def getProp (v : Val) (k : String) : Val :=
  match v with
  | .obj fs => (fs.lookup k).getD Val.undef
  | .arr xs => ((arrFields xs).lookup k).getD Val.undef
  | _ => Val.undef

mutual

/-- Node-count measure used for the termination arguments below. -/
def Val.size : Val → Nat
  | .null => 1
  | Val.undef => 1
  | .bool _ => 1
  | .num _ => 1
  | .str _ => 1
  | .arr xs => 2 + Val.sizeList xs
  | .obj fs => 2 + Val.sizeFields fs

def Val.sizeList : List Val → Nat
  | [] => 0
  | x :: xs => Val.size x + Val.sizeList xs

def Val.sizeFields : List (String × Val) → Nat
  | [] => 0
  | p :: fs => Val.size p.2 + Val.sizeFields fs

end

theorem Val.size_pos (v : Val) : 0 < Val.size v := by
  cases v <;> simp [Val.size]

theorem sizeList_lt_of_mem {x : Val} {xs : List Val} (h : x ∈ xs) :
    Val.size x ≤ Val.sizeList xs := by
  induction xs with
  | nil => cases h
  | cons y ys ih =>
    rcases List.mem_cons.mp h with h | h
    · subst h; simp [Val.sizeList]
    · have := ih h; simp [Val.sizeList]; omega

theorem sizeFields_lookup_le (fs : List (String × Val)) (k : String) (v : Val)
    (h : fs.lookup k = some v) : Val.size v ≤ Val.sizeFields fs := by
  induction fs with
  | nil => simp [List.lookup] at h
  | cons p rest ih =>
    rw [List.lookup] at h
    by_cases hk : k == p.1
    · simp [hk] at h
      subst h
      simp [Val.sizeFields]
    · simp [hk] at h
      have := ih h
      simp [Val.sizeFields]
      omega

theorem zip_lookup_mem {l : List String} {xs : List Val} {k : String} {v : Val}
    (h : (l.zip xs).lookup k = some v) : v ∈ xs := by
  induction l generalizing xs with
  | nil => simp [List.lookup] at h
  | cons a rest ih =>
    cases xs with
    | nil => simp [List.lookup] at h
    | cons x xt =>
      rw [List.zip_cons_cons, List.lookup] at h
      by_cases hk : k == a
      · simp [hk] at h
        subst h
        exact List.mem_cons_self x xt
      · simp [hk] at h
        exact List.mem_cons_of_mem x (ih h)

theorem getProp_size_lt (v : Val) (k : String) (h : isPrim v = false) :
    Val.size (getProp v k) < Val.size v := by
  cases v with
  | null => simp [isPrim] at h
  | undef => simp [isPrim] at h
  | bool b => simp [isPrim] at h
  | num n => simp [isPrim] at h
  | str s => simp [isPrim] at h
  | arr xs =>
    simp only [getProp]
    cases hl : (arrFields xs).lookup k with
    | none => simp [Option.getD, Val.size]; omega
    | some w =>
      simp only [Option.getD]
      have hw : w ∈ xs := zip_lookup_mem (l := (List.range xs.length).map natStr) hl
      have := sizeList_lt_of_mem hw
      simp [Val.size]
      omega
  | obj fs =>
    simp only [getProp]
    cases hl : fs.lookup k with
    | none => simp [Option.getD, Val.size]; omega
    | some w =>
      simp only [Option.getD]
      have := sizeFields_lookup_le fs k w hl
      simp [Val.size]
      omega

/-- `deepEqual` from `utils.ts`.  The source first takes the `a === b` fast
path, answers `a === b` when either side is primitive (the following
`!a || !b` guard is subsumed: every falsy value is a primitive), compares
arrays index-wise, and otherwise falls into a generic object branch that
compares the sorted `Object.keys` lists and recurses per key — note that an
array meeting a plain object lands in that generic branch, where the array
contributes its index keys.  The match below dispatches on the two shapes
first and answers the primitive cases in the fallback, which is extensionally
the same dispatch. -/
def deepEqual (a b : Val) : Bool :=
  if a = b then true
  else
    match a, b with
    | .arr xs, .arr ys =>
      xs.length == ys.length &&
        (xs.zip ys).attach.all fun p => deepEqual p.1.1 p.1.2
    | .arr xs, .obj gs =>
      let aKeys := (keysOf (Val.arr xs)).insertionSort (· ≤ ·)
      let bKeys := (keysOf (Val.obj gs)).insertionSort (· ≤ ·)
      aKeys == bKeys &&
        aKeys.all fun k => deepEqual (getProp (Val.arr xs) k) (getProp (Val.obj gs) k)
    | .obj fs, .arr ys =>
      let aKeys := (keysOf (Val.obj fs)).insertionSort (· ≤ ·)
      let bKeys := (keysOf (Val.arr ys)).insertionSort (· ≤ ·)
      aKeys == bKeys &&
        aKeys.all fun k => deepEqual (getProp (Val.obj fs) k) (getProp (Val.arr ys) k)
    | .obj fs, .obj gs =>
      let aKeys := (keysOf (Val.obj fs)).insertionSort (· ≤ ·)
      let bKeys := (keysOf (Val.obj gs)).insertionSort (· ≤ ·)
      aKeys == bKeys &&
        aKeys.all fun k => deepEqual (getProp (Val.obj fs) k) (getProp (Val.obj gs) k)
    | _, _ => decide (a = b)
termination_by Val.size a
decreasing_by
  all_goals first
    | exact getProp_size_lt _ _ rfl
    | (rcases p with ⟨⟨x, y⟩, hm⟩
       have hms := sizeList_lt_of_mem (List.of_mem_zip hm).1
       simp [Val.size]
       omega)

/-- `stableStringify` from `utils.ts`, on acyclic values.  Primitives render
via `JSON.stringify` with `undefined` mapped to the null literal; arrays are
comma-joined in brackets; objects sort their key list ascending, skip
properties whose value is `undefined`, and join `"key":value` entries in
braces.  (The `seen` set of the source never fires on an acyclic graph, since
an ancestor's membership is removed on return from its subtree; the heap
embedding below models it for the cyclic case.) -/
def stableStringify (v : Val) : String :=
  match v with
  | .null => "null"
  | Val.undef => "null"
  | .bool b => if b then "true" else "false"
  | .num n => intStr n
  | .str s => jsonQuote s
  | .arr xs =>
    "[" ++ String.intercalate "," (xs.attach.map fun x => stableStringify x.1) ++ "]"
  | .obj fs =>
    let keys := (fs.map Prod.fst).insertionSort (· ≤ ·)
    "\x7b" ++ String.intercalate ","
      (keys.filterMap fun k =>
        let child := getProp (Val.obj fs) k
        if child = Val.undef then none
        else some (jsonQuote k ++ ":" ++ stableStringify child)) ++ "\x7d"
termination_by Val.size v
decreasing_by
  all_goals first
    | exact getProp_size_lt _ _ rfl
    | (have hms := sizeList_lt_of_mem x.2
       simp [Val.size]
       omega)

/-- JavaScript `ToInt32`: reduce an integer into `[-2^31, 2^31)` modulo
`2^32` (the result of `|0` and of 32-bit shifts). -/
def toInt32 (n : Int) : Int :=
  (n + 2 ^ 31) % 2 ^ 32 - 2 ^ 31

/-- One step of the `hashCode` loop from `utils.ts`:
`hash = (hash << 5) - hash + chr; hash |= 0`. -/
def hashStep (h : Int) (c : Nat) : Int :=
  toInt32 (toInt32 (h * 32) - h + c)

/-- `hashCode` from `utils.ts`: fold the character codes of the stable
stringification through the shift-and-subtract loop, then `>>> 0` the final
32-bit value into an unsigned number. -/
def hashCode (v : Val) : Nat :=
  let s := stableStringify v
  (((s.data.foldl (fun (h : Int) (c : Char) => hashStep h c.toNat) 0)) % 2 ^ 32).toNat

/-- Modelled from the spec: "folding the canonical form's character codes
through a cumulative multiply-and-add reduction (multiplier 31, using 32-bit
wraparound arithmetic at each step)" starting from 0. -/
def specHash31 (v : Val) : Nat :=
  (stableStringify v).data.foldl (fun (h : Nat) (c : Char) => (31 * h + c.toNat) % 2 ^ 32) 0

theorem hashFold_congr (cs : List Char) (h : Int) (H : Nat)
    (hc : h % 2 ^ 32 = (H : Int) % 2 ^ 32) :
    (cs.foldl (fun (h : Int) (c : Char) => hashStep h c.toNat) h) % 2 ^ 32
      = ((cs.foldl (fun (h : Nat) (c : Char) => (31 * h + c.toNat) % 2 ^ 32) H : Nat) : Int) % 2 ^ 32 := by
  induction cs generalizing h H with
  | nil => exact hc
  | cons c cs ih =>
    simp only [List.foldl_cons]
    apply ih
    simp only [hashStep, toInt32]
    omega

theorem specFold_lt (cs : List Char) (H : Nat) (hH : H < 2 ^ 32) :
    cs.foldl (fun (h : Nat) (c : Char) => (31 * h + c.toNat) % 2 ^ 32) H < 2 ^ 32 := by
  induction cs generalizing H with
  | nil => exact hH
  | cons c cs ih =>
    simp only [List.foldl_cons]
    exact ih _ (Nat.mod_lt _ (by norm_num))

/-- C6: for every (acyclic) value, `hashCode` equals the canonical string's
character codes folded left-to-right through `h := 31*h + c` with 32-bit
wraparound arithmetic at each step starting from 0, and the result is an
unsigned 32-bit integer in `[0, 2^32)`. -/
theorem hashCode_is_31_fold (v : Val) :
    hashCode v = specHash31 v ∧ hashCode v < 2 ^ 32 := by
  have hcong := hashFold_congr (stableStringify v).data 0 0 (by norm_num)
  have hlt : specHash31 v < 2 ^ 32 := specFold_lt _ 0 (by norm_num)
  unfold specHash31 at hlt
  unfold hashCode specHash31
  simp only []
  constructor
  · omega
  · omega

/-- C1: `deepEqual` does not coincide with equality of canonical forms.  The
sequence `[0]` and the mapping `{"0": 0}` are `deepEqual` (the array reaches
the generic object branch, where its index keys match), yet canonicalize to
the distinct strings `[0]` and `{"0":0}`; conversely `{a: undefined}` and
`{}` both canonicalize to `{}` but are not `deepEqual` (the key counts
differ). -/
theorem deepEqual_vs_canonical_failure :
    deepEqual (Val.arr [Val.num 0]) (Val.obj [("0", Val.num 0)]) = true ∧
    stableStringify (Val.arr [Val.num 0])
      ≠ stableStringify (Val.obj [("0", Val.num 0)]) ∧
    deepEqual (Val.obj [("a", Val.undef)]) (Val.obj []) = false ∧
    stableStringify (Val.obj [("a", Val.undef)]) = stableStringify (Val.obj []) := by
  refine ⟨?_, ?_, ?_, ?_⟩ <;>
    simp +decide [deepEqual, stableStringify, keysOf, getProp, arrFields,
      natStr, natStrAux, jsonQuote, intStr, escapeChar,
      List.insertionSort, List.orderedInsert, List.lookup]

/-- C5: `deepEqual(a, b) = true` does not imply equal hash codes: the
sequence `[0]` and the mapping `{"0": 0}` are `deepEqual` but hash to
different values (their canonical strings differ). -/
theorem deepEqual_hash_failure :
    deepEqual (Val.arr [Val.num 0]) (Val.obj [("0", Val.num 0)]) = true ∧
    hashCode (Val.arr [Val.num 0]) ≠ hashCode (Val.obj [("0", Val.num 0)]) := by
  constructor
  · simp +decide [deepEqual, keysOf, getProp, arrFields, natStr, natStrAux,
      List.insertionSort, List.orderedInsert, List.lookup]
  · have h1 : stableStringify (Val.arr [Val.num 0]) = "[0]" := by
      simp +decide [stableStringify, intStr, natStr, natStrAux]
    have h2 : stableStringify (Val.obj [("0", Val.num 0)]) = "\x7b\"0\":0\x7d" := by
      simp +decide [stableStringify, getProp, jsonQuote, intStr, natStr, natStrAux,
        escapeChar, List.insertionSort, List.orderedInsert, List.lookup]
    simp only [hashCode, h1, h2]
    decide

/-- Comparison of object fields by key, mirroring the default string
comparator of the key sort in `stableStringify`. -/
def keyLe (p q : String × Val) : Prop := p.1 ≤ q.1

instance : DecidableRel keyLe := fun p q => inferInstanceAs (Decidable (p.1 ≤ q.1))

instance : IsTotal (String × Val) keyLe := ⟨fun a b => le_total a.1 b.1⟩

instance : IsTrans (String × Val) keyLe := ⟨fun _ _ _ h1 h2 => le_trans h1 h2⟩

theorem mapFst_orderedInsert (p : String × Val) (l : List (String × Val)) :
    (l.orderedInsert keyLe p).map Prod.fst
      = (l.map Prod.fst).orderedInsert (· ≤ ·) p.1 := by
  induction l with
  | nil => rfl
  | cons q l ih =>
    simp only [List.orderedInsert, List.map_cons]
    by_cases h : keyLe p q
    · rw [if_pos h, if_pos (show p.1 ≤ q.1 from h)]
      simp
    · rw [if_neg h, if_neg (show ¬p.1 ≤ q.1 from h)]
      simp [ih]

theorem mapFst_insertionSort (fs : List (String × Val)) :
    (fs.insertionSort keyLe).map Prod.fst
      = (fs.map Prod.fst).insertionSort (· ≤ ·) := by
  induction fs with
  | nil => rfl
  | cons p fs ih =>
    simp only [List.insertionSort]
    rw [mapFst_orderedInsert, ih]

theorem lookup_of_mem_nodup {fs : List (String × Val)} {p : String × Val}
    (hnd : (fs.map Prod.fst).Nodup) (hp : p ∈ fs) : fs.lookup p.1 = some p.2 := by
  induction fs with
  | nil => cases hp
  | cons q fs ih =>
    simp only [List.map_cons, List.nodup_cons] at hnd
    rcases List.mem_cons.mp hp with h | h
    · subst h
      simp [List.lookup]
    · have hmem : p.1 ∈ fs.map Prod.fst := List.mem_map_of_mem Prod.fst h
      have hne : (p.1 == q.1) = false := by
        simp only [beq_eq_false_iff_ne, ne_eq]
        intro hcontra
        exact hnd.1 (hcontra ▸ hmem)
      rw [List.lookup, hne]
      exact ih hnd.2 h

theorem sorted_nodupkeys_perm_eq {l1 l2 : List (String × Val)}
    (hperm : l1.Perm l2) (hs1 : l1.Sorted keyLe) (hs2 : l2.Sorted keyLe)
    (hnd : (l1.map Prod.fst).Nodup) : l1 = l2 := by
  haveI : IsAntisymm (String × Val) (fun p q => p.1 < q.1) :=
    ⟨fun a b h1 h2 => absurd h2 (lt_asymm h1)⟩
  have hnd2 : (l2.map Prod.fst).Nodup := ((hperm.map Prod.fst).nodup_iff).mp hnd
  have hne1 : l1.Pairwise (fun p q : String × Val => p.1 ≠ q.1) :=
    (List.pairwise_map).mp hnd
  have hne2 : l2.Pairwise (fun p q : String × Val => p.1 ≠ q.1) :=
    (List.pairwise_map).mp hnd2
  refine List.eq_of_perm_of_sorted (r := fun p q : String × Val => p.1 < q.1) hperm ?_ ?_
  · exact (hs1.and hne1).imp fun h => lt_of_le_of_ne h.1 h.2
  · exact (hs2.and hne2).imp fun h => lt_of_le_of_ne h.1 h.2

theorem filterMap_undef_guard {β : Type} (g : String × Val → β)
    (l : List (String × Val)) :
    (l.filterMap fun p => if p.2 = Val.undef then none else some (g p))
      = (l.filter fun p => p.2 ≠ Val.undef).map g := by
  induction l with
  | nil => rfl
  | cons p l ih =>
    by_cases h : p.2 = Val.undef
    · simp [List.filterMap_cons, List.filter_cons, h, ih]
    · simp [List.filterMap_cons, List.filter_cons, h, ih]

theorem filter_insertionSort_comm (fs : List (String × Val))
    (hnd : (fs.map Prod.fst).Nodup) :
    (fs.insertionSort keyLe).filter (fun p => p.2 ≠ Val.undef)
      = (fs.filter fun p => p.2 ≠ Val.undef).insertionSort keyLe := by
  have hsortperm := List.perm_insertionSort keyLe fs
  have hperm : ((fs.insertionSort keyLe).filter (fun p => p.2 ≠ Val.undef)).Perm
      ((fs.filter fun p => p.2 ≠ Val.undef).insertionSort keyLe) :=
    (hsortperm.filter _).trans (List.perm_insertionSort keyLe _).symm
  have hs1 : ((fs.insertionSort keyLe).filter (fun p => p.2 ≠ Val.undef)).Sorted keyLe :=
    (List.sorted_insertionSort keyLe fs).sublist (List.filter_sublist _)
  have hs2 := List.sorted_insertionSort keyLe (fs.filter fun p => p.2 ≠ Val.undef)
  have hnds : ((fs.insertionSort keyLe).map Prod.fst).Nodup :=
    ((hsortperm.map Prod.fst).nodup_iff).mpr hnd
  have hndf : (((fs.insertionSort keyLe).filter (fun p => p.2 ≠ Val.undef)).map Prod.fst).Nodup :=
    hnds.sublist ((List.filter_sublist _).map Prod.fst)
  exact sorted_nodupkeys_perm_eq hperm hs1 hs2 hndf

/-- The object case of `stableStringify`, re-expressed over the field list:
sort the (nodup-keyed) fields by key, drop those whose value is `undefined`,
and join the `"key":value` entries. -/
theorem stableStringify_obj_eq (fs : List (String × Val))
    (hnd : (fs.map Prod.fst).Nodup) :
    stableStringify (Val.obj fs)
      = "\x7b" ++ String.intercalate ","
          (((fs.filter fun p => p.2 ≠ Val.undef).insertionSort keyLe).map
            fun p => jsonQuote p.1 ++ ":" ++ stableStringify p.2) ++ "\x7d" := by
  rw [stableStringify]
  simp only []
  rw [show ((fs.map Prod.fst).insertionSort (· ≤ ·))
        = (fs.insertionSort keyLe).map Prod.fst from (mapFst_insertionSort fs).symm]
  rw [List.filterMap_map]
  have hcongr : ∀ p ∈ fs.insertionSort keyLe,
      ((fun k : String =>
          let child := getProp (Val.obj fs) k
          if child = Val.undef then none
          else some (jsonQuote k ++ ":" ++ stableStringify child)) ∘ Prod.fst) p
        = if p.2 = Val.undef then none
          else some (jsonQuote p.1 ++ ":" ++ stableStringify p.2) := by
    intro p hp
    have hpfs : p ∈ fs := (List.perm_insertionSort keyLe fs).mem_iff.mp hp
    have hlk : fs.lookup p.1 = some p.2 := lookup_of_mem_nodup hnd hpfs
    simp [getProp, hlk]
  rw [List.filterMap_congr hcongr]
  rw [filterMap_undef_guard, filter_insertionSort_comm fs hnd]

/-- C3: the canonical string renders mapping keys in ascending lexicographic
order with each entry as `"key":canonicalValue`, omits mapping fields whose
value is `undefined` entirely, renders `undefined` at a sequence position as
the null literal preserving position, and in particular both orderings of
`{name: "Alice", age: 30}` canonicalize to exactly
`{"age":30,"name":"Alice"}`.  Stated over field lists `fs ~ gs` with
duplicate-free keys (JavaScript objects cannot carry duplicate keys). -/
theorem canonical_form_rendering (fs gs : List (String × Val)) (xs : List Val)
    (hnd : (fs.map Prod.fst).Nodup) (hperm : fs.Perm gs) :
    stableStringify (Val.obj [("name", Val.str "Alice"), ("age", Val.num 30)])
        = "\x7b\"age\":30,\"name\":\"Alice\"\x7d"
    ∧ stableStringify (Val.obj [("age", Val.num 30), ("name", Val.str "Alice")])
        = "\x7b\"age\":30,\"name\":\"Alice\"\x7d"
    ∧ stableStringify Val.undef = "null"
    ∧ stableStringify (Val.arr xs)
        = "[" ++ String.intercalate "," (xs.map stableStringify) ++ "]"
    ∧ stableStringify (Val.obj fs)
        = "\x7b" ++ String.intercalate ","
            (((fs.filter fun p => p.2 ≠ Val.undef).insertionSort keyLe).map
              fun p => jsonQuote p.1 ++ ":" ++ stableStringify p.2) ++ "\x7d"
    ∧ (((fs.filter fun p => p.2 ≠ Val.undef).insertionSort keyLe).map
          Prod.fst).Sorted (· ≤ ·)
    ∧ stableStringify (Val.obj fs)
        = stableStringify (Val.obj (fs.filter fun p => p.2 ≠ Val.undef))
    ∧ stableStringify (Val.obj fs) = stableStringify (Val.obj gs) := by
  have hex1 : stableStringify (Val.obj [("name", Val.str "Alice"), ("age", Val.num 30)])
      = "\x7b\"age\":30,\"name\":\"Alice\"\x7d" := by
    simp +decide [stableStringify, getProp, jsonQuote, intStr, natStr, natStrAux,
      escapeChar, List.insertionSort, List.orderedInsert, List.lookup]
  have hex2 : stableStringify (Val.obj [("age", Val.num 30), ("name", Val.str "Alice")])
      = "\x7b\"age\":30,\"name\":\"Alice\"\x7d" := by
    simp +decide [stableStringify, getProp, jsonQuote, intStr, natStr, natStrAux,
      escapeChar, List.insertionSort, List.orderedInsert, List.lookup]
  have hundef : stableStringify Val.undef = "null" := by
    rw [stableStringify]
  have harr : stableStringify (Val.arr xs)
      = "[" ++ String.intercalate "," (xs.map stableStringify) ++ "]" := by
    rw [stableStringify, List.attach_map_coe xs stableStringify]
  have hfilt : ((fs.filter fun p => p.2 ≠ Val.undef).map Prod.fst).Nodup :=
    hnd.sublist ((List.filter_sublist fs).map Prod.fst)
  have hobj := stableStringify_obj_eq fs hnd
  have homit : stableStringify (Val.obj fs)
      = stableStringify (Val.obj (fs.filter fun p => p.2 ≠ Val.undef)) := by
    rw [hobj, stableStringify_obj_eq _ hfilt]
    have hself := List.filter_eq_self
      (p := fun p : String × Val => decide (p.2 ≠ Val.undef))
      (l := fs.filter fun p => p.2 ≠ Val.undef)
    have hall : ∀ a ∈ fs.filter (fun p : String × Val => decide (p.2 ≠ Val.undef)),
        decide (a.2 ≠ Val.undef) = true := by
      intro a ha
      exact (List.mem_filter.mp ha).2
    rw [hself.mpr hall]
  have hsorted : (((fs.filter fun p => p.2 ≠ Val.undef).insertionSort keyLe).map
      Prod.fst).Sorted (· ≤ ·) := by
    rw [mapFst_insertionSort]
    exact List.sorted_insertionSort _ _
  have hgsnd : (gs.map Prod.fst).Nodup := ((hperm.map Prod.fst).nodup_iff).mp hnd
  have hpermeq : stableStringify (Val.obj fs) = stableStringify (Val.obj gs) := by
    rw [hobj, stableStringify_obj_eq gs hgsnd]
    have hsorteq : (fs.filter fun p => p.2 ≠ Val.undef).insertionSort keyLe
        = (gs.filter fun p => p.2 ≠ Val.undef).insertionSort keyLe := by
      apply sorted_nodupkeys_perm_eq
      · exact (List.perm_insertionSort keyLe _).trans
          ((hperm.filter _).trans (List.perm_insertionSort keyLe _).symm)
      · exact List.sorted_insertionSort _ _
      · exact List.sorted_insertionSort _ _
      · exact (((List.perm_insertionSort keyLe _).map Prod.fst).nodup_iff).mpr hfilt
    rw [hsorteq]
  exact ⟨hex1, hex2, hundef, harr, hobj, hsorted, homit, hpermeq⟩

/-- Witness for `canonical_form_rendering` at concrete inputs: the record
`{b: 1, a: undefined}` and its field-reversed form canonicalize identically. -/
theorem canonical_form_rendering_witness :
    stableStringify (Val.obj [("b", Val.num 1), ("a", Val.undef)])
      = stableStringify (Val.obj [("a", Val.undef), ("b", Val.num 1)]) :=
  (canonical_form_rendering
    [("b", Val.num 1), ("a", Val.undef)]
    [("a", Val.undef), ("b", Val.num 1)] []
    (by decide) (by decide)).2.2.2.2.2.2.2

/-- JavaScript property assignment `base[k] = v` on an insertion-ordered
field list: an existing key is updated in place, a new key is appended. -/
def setField : List (String × Val) → String → Val → List (String × Val)
  | [], k, v => [(k, v)]
  | p :: fs, k, v => if p.1 = k then (k, v) :: fs else p :: setField fs k v

theorem sizeFields_zip_le (l : List String) (xs : List Val) :
    Val.sizeFields (l.zip xs) ≤ Val.sizeList xs := by
  induction l generalizing xs with
  | nil => simp [Val.sizeFields, List.zip_nil_left]
  | cons a l ih =>
    cases xs with
    | nil => simp [Val.sizeFields, List.zip_nil_right]
    | cons x xt =>
      rw [List.zip_cons_cons]
      simp only [Val.sizeFields, Val.sizeList]
      have := ih xt
      omega

mutual

/-- `mergeDeep` from `dataclass.ts`.  A falsy or non-object patch is a no-op;
an object patch (arrays included — `typeof [] === 'object'`, contributing
index keys) has each of its keys applied in order by `mergeOne`. -/
def mergeDeep (base : List (String × Val)) (patch : Val) : List (String × Val) :=
  match patch with
  | .obj pfs => mergeFields base pfs
  | .arr xs => mergeFields base (arrFields xs)
  | _ => base
termination_by Val.size patch
decreasing_by
  · simp [Val.size]
  · have := sizeFields_zip_le ((List.range xs.length).map natStr) xs
    simp [Val.size, arrFields]
    omega

/-- The `for (const k of Object.keys(patch))` loop of `mergeDeep`. -/
def mergeFields (base : List (String × Val)) (pfs : List (String × Val)) :
    List (String × Val) :=
  match pfs with
  | [] => base
  | (k, pv) :: rest => mergeFields (mergeOne base k pv) rest
termination_by 1 + Val.sizeFields pfs
decreasing_by
  · have := Val.size_pos pv
    simp [Val.sizeFields]
    omega
  · simp [Val.sizeFields]
    have := Val.size_pos pv
    omega

/-- One iteration of the `mergeDeep` loop: skip an `undefined` patch value;
replace wholesale with a (sliced) array; merge a mapping patch value into a
copy of a mapping base value; otherwise overwrite. -/
def mergeOne (base : List (String × Val)) (k : String) (pv : Val) :
    List (String × Val) :=
  match pv with
  | Val.undef => base
  | .arr xs => setField base k (.arr xs)
  | .obj pvfs =>
    match base.lookup k with
    | some (.obj bfs) => setField base k (.obj (mergeFields bfs pvfs))
    | _ => setField base k (.obj pvfs)
  | _ => setField base k pv
termination_by Val.size pv
decreasing_by
  · simp [Val.size]

end

theorem setField_lookup_self (fs : List (String × Val)) (k : String) (v : Val) :
    (setField fs k v).lookup k = some v := by
  induction fs with
  | nil => simp [setField, List.lookup]
  | cons p fs ih =>
    by_cases h : p.1 = k
    · simp [setField, h, List.lookup]
    · have hb : (k == p.1) = false := beq_eq_false_iff_ne.mpr (Ne.symm h)
      simp [setField, h, List.lookup, hb, ih]

theorem setField_lookup_other (fs : List (String × Val)) (k k' : String) (v : Val)
    (h : k' ≠ k) : (setField fs k v).lookup k' = fs.lookup k' := by
  have hb : (k' == k) = false := beq_eq_false_iff_ne.mpr h
  induction fs with
  | nil => simp [setField, List.lookup, hb]
  | cons p fs ih =>
    by_cases hp : p.1 = k
    · subst hp
      simp [setField, List.lookup, hb]
    · simp only [setField, if_neg hp]
      by_cases hk : k' = p.1
      · simp [List.lookup, hk]
      · have hb2 : (k' == p.1) = false := beq_eq_false_iff_ne.mpr hk
        simp [List.lookup, hb2, ih]

theorem mergeOne_lookup_other (base : List (String × Val)) (k1 : String) (pv : Val)
    (k : String) (h : k ≠ k1) : (mergeOne base k1 pv).lookup k = base.lookup k := by
  cases pv with
  | undef => rw [mergeOne]
  | arr xs => rw [mergeOne]; exact setField_lookup_other _ _ _ _ h
  | obj pvfs =>
    rw [mergeOne]
    rcases hb : base.lookup k1 with _ | w
    · exact setField_lookup_other _ _ _ _ h
    · cases w <;> simp only [] <;> exact setField_lookup_other _ _ _ _ h
  | null => simp only [mergeOne]; exact setField_lookup_other _ _ _ _ h
  | bool b => simp only [mergeOne]; exact setField_lookup_other _ _ _ _ h
  | num n => simp only [mergeOne]; exact setField_lookup_other _ _ _ _ h
  | str s => simp only [mergeOne]; exact setField_lookup_other _ _ _ _ h

theorem mergeFields_lookup_nomem (pfs : List (String × Val))
    (base : List (String × Val)) (k : String) (h : k ∉ pfs.map Prod.fst) :
    (mergeFields base pfs).lookup k = base.lookup k := by
  induction pfs generalizing base with
  | nil => rw [mergeFields]
  | cons p rest ih =>
    rcases p with ⟨k1, pv⟩
    simp only [List.map_cons, List.mem_cons, not_or] at h
    rw [mergeFields]
    rw [ih _ h.2, mergeOne_lookup_other _ _ _ _ h.1]

theorem lookup_none_iff (fs : List (String × Val)) (k : String) :
    fs.lookup k = none ↔ k ∉ fs.map Prod.fst := by
  induction fs with
  | nil => simp [List.lookup]
  | cons p fs ih =>
    by_cases h : k = p.1
    · simp [List.lookup, h]
    · have hb : (k == p.1) = false := beq_eq_false_iff_ne.mpr h
      simp [List.lookup, hb, ih, h]

/-- The value found at a patched key after `mergeDeep`, as a function of the
patch value at that key and of what the base held there. -/
def mergePatchResult (bv : Option Val) (pv : Val) : Option Val :=
  match pv with
  | Val.undef => bv
  | .arr xs => some (Val.arr xs)
  | .obj pvfs =>
    match bv with
    | some (.obj bsub) => some (Val.obj (mergeFields bsub pvfs))
    | _ => some (Val.obj pvfs)
  | _ => some pv

theorem mergeFields_lookup (pfs : List (String × Val))
    (bfs : List (String × Val)) (k : String) (pv : Val)
    (hnd : (pfs.map Prod.fst).Nodup) (hlk : pfs.lookup k = some pv) :
    (mergeFields bfs pfs).lookup k = mergePatchResult (bfs.lookup k) pv := by
  induction pfs generalizing bfs with
  | nil => simp [List.lookup] at hlk
  | cons p rest ih =>
    rcases p with ⟨k1, pv1⟩
    simp only [List.map_cons, List.nodup_cons] at hnd
    rw [mergeFields]
    by_cases hk : k = k1
    · subst hk
      rw [List.lookup] at hlk
      simp only [beq_self_eq_true] at hlk
      injection hlk with hlk
      rw [mergeFields_lookup_nomem rest _ k hnd.1, hlk]
      cases pv with
      | undef => rw [mergeOne]; simp only [mergePatchResult]
      | arr xs =>
        rw [mergeOne]; simp only [mergePatchResult]
        exact setField_lookup_self _ _ _
      | obj pvfs =>
        rw [mergeOne]
        rcases hb : bfs.lookup k with _ | w
        · simp only [mergePatchResult]
          exact setField_lookup_self _ _ _
        · cases w <;> simp only [mergePatchResult] <;> exact setField_lookup_self _ _ _
      | null =>
        simp only [mergeOne, mergePatchResult]
        exact setField_lookup_self _ _ _
      | bool b =>
        simp only [mergeOne, mergePatchResult]
        exact setField_lookup_self _ _ _
      | num n =>
        simp only [mergeOne, mergePatchResult]
        exact setField_lookup_self _ _ _
      | str st =>
        simp only [mergeOne, mergePatchResult]
        exact setField_lookup_self _ _ _
    · have hb : (k == k1) = false := beq_eq_false_iff_ne.mpr hk
      rw [List.lookup] at hlk
      simp only [hb] at hlk
      rw [ih _ hnd.2 hlk, mergeOne_lookup_other _ _ _ _ hk]

/-- C4: `mergeDeep` semantics per patch key (patch keys are duplicate-free,
as for any JavaScript object): an `undefined` patch value leaves the base
field untouched; a sequence patch value replaces the base value wholesale; a
mapping patch value meeting a mapping base value is merged recursively and
the merged sub-mapping installed; any other patch value overwrites directly;
keys absent from the patch are untouched; and a non-object patch (a
primitive or `null`) leaves the base entirely unchanged. -/
theorem mergeDeep_patch_semantics (bfs pfs : List (String × Val))
    (hnd : (pfs.map Prod.fst).Nodup) :
    (∀ k, pfs.lookup k = none →
      (mergeDeep bfs (Val.obj pfs)).lookup k = bfs.lookup k)
    ∧ (∀ k, pfs.lookup k = some Val.undef →
      (mergeDeep bfs (Val.obj pfs)).lookup k = bfs.lookup k)
    ∧ (∀ k xs, pfs.lookup k = some (Val.arr xs) →
      (mergeDeep bfs (Val.obj pfs)).lookup k = some (Val.arr xs))
    ∧ (∀ k pvfs bsub, pfs.lookup k = some (Val.obj pvfs) →
      bfs.lookup k = some (Val.obj bsub) →
      (mergeDeep bfs (Val.obj pfs)).lookup k
        = some (Val.obj (mergeDeep bsub (Val.obj pvfs))))
    ∧ (∀ k pvfs, pfs.lookup k = some (Val.obj pvfs) →
      (∀ bsub, bfs.lookup k ≠ some (Val.obj bsub)) →
      (mergeDeep bfs (Val.obj pfs)).lookup k = some (Val.obj pvfs))
    ∧ (∀ k pv, pfs.lookup k = some pv → isPrim pv = true → pv ≠ Val.undef →
      (mergeDeep bfs (Val.obj pfs)).lookup k = some pv)
    ∧ (∀ p, isPrim p = true → mergeDeep bfs p = bfs) := by
  have hdef : mergeDeep bfs (Val.obj pfs) = mergeFields bfs pfs := by rw [mergeDeep]
  refine ⟨?_, ?_, ?_, ?_, ?_, ?_, ?_⟩
  · intro k hk
    rw [hdef]
    exact mergeFields_lookup_nomem pfs bfs k ((lookup_none_iff pfs k).mp hk)
  · intro k hk
    rw [hdef, mergeFields_lookup pfs bfs k _ hnd hk]
    rfl
  · intro k xs hk
    rw [hdef, mergeFields_lookup pfs bfs k _ hnd hk]
    rfl
  · intro k pvfs bsub hk hb
    rw [hdef, mergeFields_lookup pfs bfs k _ hnd hk, hb]
    rw [show mergeDeep bsub (Val.obj pvfs) = mergeFields bsub pvfs from by rw [mergeDeep]]
    rfl
  · intro k pvfs hk hb
    rw [hdef, mergeFields_lookup pfs bfs k _ hnd hk]
    rcases hbk : bfs.lookup k with _ | w
    · rfl
    · cases w with
      | obj bsub => exact absurd hbk (hb _)
      | null => rfl
      | undef => rfl
      | bool b => rfl
      | num n => rfl
      | str st => rfl
      | arr xs => rfl
  · intro k pv hk hp hne
    cases pv with
    | undef => exact absurd rfl hne
    | arr xs => simp [isPrim] at hp
    | obj gs => simp [isPrim] at hp
    | null => rw [hdef, mergeFields_lookup pfs bfs k _ hnd hk]; rfl
    | bool b => rw [hdef, mergeFields_lookup pfs bfs k _ hnd hk]; rfl
    | num n => rw [hdef, mergeFields_lookup pfs bfs k _ hnd hk]; rfl
    | str st => rw [hdef, mergeFields_lookup pfs bfs k _ hnd hk]; rfl
  · intro p hp
    cases p <;> simp only [mergeDeep] <;> simp [isPrim] at hp

/-- Witness for `mergeDeep_patch_semantics`: patching
`{name: "Alice", age: 30}` with `{age: 31}` updates `age` and leaves
`name` untouched. -/
theorem mergeDeep_patch_semantics_witness :
    (mergeDeep [("name", Val.str "Alice"), ("age", Val.num 30)]
        (Val.obj [("age", Val.num 31)])).lookup "age" = some (Val.num 31)
    ∧ (mergeDeep [("name", Val.str "Alice"), ("age", Val.num 30)]
        (Val.obj [("age", Val.num 31)])).lookup "name" = some (Val.str "Alice") := by
  have h := mergeDeep_patch_semantics
    [("name", Val.str "Alice"), ("age", Val.num 30)] [("age", Val.num 31)]
    (by decide)
  constructor
  · exact h.2.2.2.2.2.1 "age" (Val.num 31) (by decide) (by decide) (by decide)
  · have := h.1 "name" (by decide)
    rw [this]
    decide

/-- JavaScript loose `x == null`: true exactly for `null` and `undefined`. -/
def isNullish : Val → Bool
  | .null => true
  | Val.undef => true
  | _ => false

/-- JavaScript `<` on same-kind primitive operands (numeric order for
numbers, lexicographic for strings, `false < true` for booleans).  Mixed-kind
comparisons would coerce in the host and are outside the modelled domain; the
ordering theorems below restrict the compared field values accordingly. -/
def jsLt (a b : Val) : Bool :=
  match a, b with
  | .num m, .num n => m < n
  | .str s, .str t => s < t
  | .bool x, .bool y => !x && y
  | _, _ => false

/-- One iteration of the `compareByKeys` loop: `none` means "continue with
the next key" (`av === bv`, or neither `<` holds).  For composite operands
`===` is reference identity, which the pure embedding cannot observe; the
ordering theorems below therefore constrain the compared field values to
primitives, where `===` is value equality. -/
def compareStep (av bv : Val) : Option Int :=
  if av = bv then none
  else if isNullish av then some (-1)
  else if isNullish bv then some 1
  else if jsLt av bv then some (-1)
  else if jsLt bv av then some 1
  else none

/-- The `for (const key of keys)` loop of `compareByKeys`. -/
def compareKeysLoop (a b : Val) : List String → Int
  | [] => 0
  | k :: ks =>
    match compareStep (getProp a k) (getProp b k) with
    | some r => r
    | none => compareKeysLoop a b ks

/-- `compareByKeys` from `utils.ts`: walk `orderBy` when non-empty, else
`Object.keys(a)`. -/
def compareByKeys (a b : Val) (orderBy : List String) : Int :=
  let keys := if orderBy ≠ [] then orderBy else keysOf a
  compareKeysLoop a b keys

/-- C8: `compareByKeys` walks the key list (defaulting to `a`'s own keys in
enumeration order when `orderBy` is empty); per key, equal values skip to the
next key, a null/absent value on either side sorts before any concrete value,
otherwise same-kind primitive values compare by host ordering; the first key
producing a non-zero result decides, and exhausting all keys yields 0.
Comparing `{name:"A"}` with `{name:"B"}` under `["name"]` yields a negative
result. -/
theorem compareByKeys_semantics (a b : Val) (k : String) (ks : List String)
    (m n : Int) (s t : String) :
    compareByKeys a b [] = compareKeysLoop a b (keysOf a)
    ∧ compareKeysLoop a b [] = 0
    ∧ (getProp a k = getProp b k →
        compareKeysLoop a b (k :: ks) = compareKeysLoop a b ks)
    ∧ (getProp a k ≠ getProp b k → isNullish (getProp a k) = true →
        compareKeysLoop a b (k :: ks) = -1)
    ∧ (getProp a k ≠ getProp b k → isNullish (getProp a k) = false →
        isNullish (getProp b k) = true →
        compareKeysLoop a b (k :: ks) = 1)
    ∧ (getProp a k = Val.num m → getProp b k = Val.num n → m ≠ n →
        compareKeysLoop a b (k :: ks) = if m < n then -1 else 1)
    ∧ (getProp a k = Val.str s → getProp b k = Val.str t → s ≠ t →
        compareKeysLoop a b (k :: ks) = if s < t then -1 else 1)
    ∧ compareByKeys (Val.obj [("name", Val.str "A")])
        (Val.obj [("name", Val.str "B")]) ["name"] = -1 := by
  refine ⟨by simp [compareByKeys], rfl, ?_, ?_, ?_, ?_, ?_, ?_⟩
  · intro h
    rw [compareKeysLoop, compareStep, if_pos h]
  · intro hne hn
    rw [compareKeysLoop, compareStep, if_neg hne, if_pos hn]
  · intro hne hna hnb
    rw [compareKeysLoop, compareStep, if_neg hne,
      if_neg (show ¬isNullish (getProp a k) = true by simp [hna]), if_pos hnb]
  · intro ha hb hmn
    rw [compareKeysLoop, compareStep, ha, hb]
    have hne : Val.num m ≠ Val.num n := by simp [hmn]
    rw [if_neg hne]
    simp only [isNullish, jsLt]
    by_cases hlt : m < n
    · simp [hlt]
    · have hgt : n < m := by omega
      simp [hlt, hgt]
  · intro ha hb hst
    rw [compareKeysLoop, compareStep, ha, hb]
    have hne : Val.str s ≠ Val.str t := by simp [hst]
    rw [if_neg hne]
    simp only [isNullish, jsLt]
    by_cases hlt : s < t
    · simp [hlt]
    · have hgt : t < s := lt_of_le_of_ne (not_lt.mp hlt) (Ne.symm hst)
      simp [hlt, hgt, not_lt.mpr (le_of_lt hgt)]
  · rw [compareByKeys]
    simp only [ne_eq, reduceCtorEq, not_false_eq_true, if_true]
    rw [compareKeysLoop, compareStep]
    simp +decide [getProp, List.lookup, isNullish, jsLt]

/-- Witness for `compareByKeys_semantics`: the number rule at a concrete
record pair (ages 30 vs 31 compare negative). -/
theorem compareByKeys_semantics_witness :
    compareKeysLoop (Val.obj [("age", Val.num 30)]) (Val.obj [("age", Val.num 31)])
      ["age"] = -1 := by
  have h := (compareByKeys_semantics (Val.obj [("age", Val.num 30)])
    (Val.obj [("age", Val.num 31)]) "age" [] 30 31 "" "").2.2.2.2.2.1
  rw [h (by simp +decide [getProp, List.lookup]) (by simp +decide [getProp, List.lookup])
    (by decide)]
  decide

/-- `Object.assign(target, source)`: every own enumerable key of the source
is assigned onto the target in order, keys with `undefined` values
included. -/
def objectAssign (target : List (String × Val)) :
    List (String × Val) → List (String × Val)
  | [] => target
  | (k, v) :: rest => objectAssign (setField target k v) rest

/-- `DataClass.create` from `dataclass.ts`: construct the instance with its
declared defaults, then `Object.assign(instance, patch)` when a patch was
given (`if (patch)`), and seal.  Sealing has no observable effect on the
field list. -/
def create (defaults : List (String × Val))
    (patch : Option (List (String × Val))) : List (String × Val) :=
  match patch with
  | none => defaults
  | some pfs => objectAssign defaults pfs

theorem objectAssign_lookup_nomem (pfs target : List (String × Val)) (k : String)
    (h : k ∉ pfs.map Prod.fst) :
    (objectAssign target pfs).lookup k = target.lookup k := by
  induction pfs generalizing target with
  | nil => rw [objectAssign]
  | cons p rest ih =>
    rcases p with ⟨k1, v⟩
    simp only [List.map_cons, List.mem_cons, not_or] at h
    rw [objectAssign, ih _ h.2, setField_lookup_other _ _ _ _ h.1]

theorem objectAssign_lookup (pfs target : List (String × Val)) (k : String)
    (v : Val) (hnd : (pfs.map Prod.fst).Nodup) (hlk : pfs.lookup k = some v) :
    (objectAssign target pfs).lookup k = some v := by
  induction pfs generalizing target with
  | nil => simp [List.lookup] at hlk
  | cons p rest ih =>
    rcases p with ⟨k1, v1⟩
    simp only [List.map_cons, List.nodup_cons] at hnd
    rw [objectAssign]
    by_cases hk : k = k1
    · subst hk
      rw [List.lookup] at hlk
      simp only [beq_self_eq_true] at hlk
      injection hlk with hlk
      rw [objectAssign_lookup_nomem rest _ k hnd.1, hlk, setField_lookup_self]
    · have hb : (k == k1) = false := beq_eq_false_iff_ne.mpr hk
      rw [List.lookup] at hlk
      simp only [hb] at hlk
      exact ih _ hnd.2 hlk

/-- C10: `create(patch)` assigns every own enumerable patch key onto the
fresh instance, keys whose value is explicitly `undefined` included — such a
key overwrites the declared default with `undefined` — while keys absent from
the patch keep their defaults; the copy/update merge path by contrast skips
`undefined` patch values. -/
theorem create_assigns_undefined (defaults pfs : List (String × Val))
    (k : String) (hnd : (pfs.map Prod.fst).Nodup) :
    (∀ v, pfs.lookup k = some v → (create defaults (some pfs)).lookup k = some v)
    ∧ (pfs.lookup k = some Val.undef →
        (create defaults (some pfs)).lookup k = some Val.undef)
    ∧ (pfs.lookup k = none →
        (create defaults (some pfs)).lookup k = defaults.lookup k)
    ∧ (pfs.lookup k = some Val.undef →
        (mergeDeep defaults (Val.obj pfs)).lookup k = defaults.lookup k) := by
  refine ⟨?_, ?_, ?_, ?_⟩
  · intro v hv
    rw [create]
    exact objectAssign_lookup pfs defaults k v hnd hv
  · intro hv
    rw [create]
    exact objectAssign_lookup pfs defaults k _ hnd hv
  · intro hv
    rw [create]
    exact objectAssign_lookup_nomem pfs defaults k ((lookup_none_iff pfs k).mp hv)
  · intro hv
    rw [show mergeDeep defaults (Val.obj pfs) = mergeFields defaults pfs
      from by rw [mergeDeep]]
    rw [mergeFields_lookup pfs defaults k _ hnd hv]
    rfl

/-- Witness for `create_assigns_undefined`: a default `{a: 1}` patched at
creation with `{a: undefined}` holds `undefined`, while the merge path keeps
the default. -/
theorem create_assigns_undefined_witness :
    (create [("a", Val.num 1)] (some [("a", Val.undef)])).lookup "a"
        = some Val.undef
    ∧ (mergeDeep [("a", Val.num 1)] (Val.obj [("a", Val.undef)])).lookup "a"
        = some (Val.num 1) := by
  have h := create_assigns_undefined [("a", Val.num 1)] [("a", Val.undef)] "a"
    (by decide)
  constructor
  · exact h.2.1 (by decide)
  · rw [h.2.2.2 (by decide)]
    decide

/-!
## Heap embedding

Reference cycles, node identity, freshness and in-place mutation need an
explicit heap: `GVal` keeps primitives inline and refers to composite nodes
by id, a `Heap` lists node contents by id, and the recursive kernel
functions take fuel (`stableStringify`'s recursion has no termination
guarantee on cyclic heaps — that is the point of claim C2). -/

/-- Heap-level values: primitives inline, composites by node id. -/
inductive GVal : Type where
  | null : GVal
  | undef : GVal
  | bool : Bool → GVal
  | num : Int → GVal
  | str : String → GVal
  | ref : Nat → GVal
deriving DecidableEq, Repr

/-- Contents of one heap node. -/
inductive HNode : Type where
  | arr : List GVal → HNode
  | obj : List (String × GVal) → HNode
deriving DecidableEq, Repr

/-- A heap: node contents indexed by position. -/
abbrev Heap := List HNode

/-- `isPrimitive` at the heap level. -/
def isPrimG : GVal → Bool
  | .ref _ => false
  | _ => true

/-- Rendering of a primitive heap value, as in `stringifyInternal`'s
primitive branch (`undefined` becomes the null literal). -/
def primStr : GVal → String
  | .null => "null"
  | GVal.undef => "null"
  | .bool b => if b then "true" else "false"
  | .num n => intStr n
  | .str s => jsonQuote s
  | .ref _ => ""

/-- Result of heap stringification: a string, the circular-reference
`TypeError`, or fuel exhaustion (modelling unbounded recursion / stack
overflow in the host). -/
inductive SRes : Type where
  | ok : String → SRes
  | circular : SRes
  | noFuel : SRes
deriving DecidableEq, Repr

/-- Intermediate result for a list of stringified parts. -/
inductive LRes : Type where
  | ok : List String → LRes
  | circular : LRes
  | noFuel : LRes
deriving DecidableEq, Repr

mutual

/-- `stableStringify` on the heap.  `seen` is the active ancestor set of the
source's `WeakSet` (object ids added before descending, removed on return —
functionally: children are called with `i :: seen`, siblings with `seen`).
The cycle check guards only the object branch, exactly as in the source: the
array branch recurses without consulting `seen`. -/
def stringifyH (h : Heap) (seen : List Nat) (fuel : Nat) (v : GVal) : SRes :=
  match v with
  | .ref i =>
    match fuel with
    | 0 => .noFuel
    | f + 1 =>
      match h[i]? with
      | some (.arr xs) =>
        match stringifyElems h seen f xs with
        | .ok ss => .ok ("[" ++ String.intercalate "," ss ++ "]")
        | .circular => .circular
        | .noFuel => .noFuel
      | some (.obj fs) =>
        if i ∈ seen then .circular
        else
          match stringifyEntries h (i :: seen) f fs
              ((fs.map Prod.fst).insertionSort (· ≤ ·)) with
          | .ok ss => .ok ("\x7b" ++ String.intercalate "," ss ++ "\x7d")
          | .circular => .circular
          | .noFuel => .noFuel
      | none => .noFuel
  | _ => .ok (primStr v)
termination_by (fuel, 0, 0)

/-- The `v.map(stringifyInternal)` of the array branch; the first thrown
error aborts. -/
def stringifyElems (h : Heap) (seen : List Nat) (fuel : Nat) : List GVal → LRes
  | [] => .ok []
  | x :: xs =>
    match stringifyH h seen fuel x with
    | .ok s =>
      match stringifyElems h seen fuel xs with
      | .ok ss => .ok (s :: ss)
      | .circular => .circular
      | .noFuel => .noFuel
    | .circular => .circular
    | .noFuel => .noFuel
termination_by xs => (fuel, 1, xs.length)

/-- The sorted-key loop of the object branch: skip keys whose value is
`undefined`, render `"key":value` otherwise. -/
def stringifyEntries (h : Heap) (seen : List Nat) (fuel : Nat)
    (fs : List (String × GVal)) : List String → LRes
  | [] => .ok []
  | k :: ks =>
    let child := (fs.lookup k).getD GVal.undef
    if child = GVal.undef then stringifyEntries h seen fuel fs ks
    else
      match stringifyH h seen fuel child with
      | .ok s =>
        match stringifyEntries h seen fuel fs ks with
        | .ok ss => .ok ((jsonQuote k ++ ":" ++ s) :: ss)
        | .circular => .circular
        | .noFuel => .noFuel
      | .circular => .circular
      | .noFuel => .noFuel
termination_by ks => (fuel, 1, ks.length)

end

/-- C2: the circular-structure error is not raised for every cycle.  A
self-containing array recurses without ever consulting the `seen` set (the
cycle check guards only the object branch), so stringification runs out of
any amount of fuel — in the host, unbounded recursion until stack overflow —
instead of throwing the circular-reference `TypeError`.  A self-containing
mapping is detected (second conjunct), and a node reachable twice via
non-overlapping paths is not falsely flagged (third conjunct), because an
ancestor's membership is cleared on return. -/
theorem circular_detection_gap :
    (∀ (fuel : Nat) (seen : List Nat),
        stringifyH [HNode.arr [GVal.ref 0]] seen fuel (GVal.ref 0) = SRes.noFuel)
    ∧ stringifyH [HNode.obj [("self", GVal.ref 0)]] [] 2 (GVal.ref 0)
        = SRes.circular
    ∧ stringifyH [HNode.obj [("x", GVal.num 1)],
          HNode.obj [("p", GVal.ref 0), ("q", GVal.ref 0)]] [] 3 (GVal.ref 1)
        = SRes.ok "\x7b\"p\":\x7b\"x\":1\x7d,\"q\":\x7b\"x\":1\x7d\x7d" := by
  refine ⟨?_, ?_, ?_⟩
  · intro fuel
    induction fuel with
    | zero => intro seen; rw [stringifyH]
    | succ f ih =>
      intro seen
      rw [stringifyH]
      simp only [List.getElem?_cons_zero]
      rw [stringifyElems, ih seen]
  · simp +decide [stringifyH, stringifyEntries, List.lookup,
      List.insertionSort, List.orderedInsert, primStr]
  · simp +decide [stringifyH, stringifyEntries, List.lookup,
      List.insertionSort, List.orderedInsert, primStr, jsonQuote, intStr,
      natStr, natStrAux, escapeChar]

/-- `setField` at the heap level (JS property assignment on a node's field
list). -/
def setFieldG : List (String × GVal) → String → GVal → List (String × GVal)
  | [], k, v => [(k, v)]
  | p :: fs, k, v => if p.1 = k then (k, v) :: fs else p :: setFieldG fs k v

/-- Index keys of an array patch at the heap level. -/
def gArrFields (xs : List GVal) : List (String × GVal) :=
  ((List.range xs.length).map natStr).zip xs

/-- Read field `k` of the object node `baseId` (`base[k]`). -/
def baseField (h : Heap) (baseId : Nat) (k : String) : GVal :=
  match h[baseId]? with
  | some (.obj fs) => (fs.lookup k).getD GVal.undef
  | _ => GVal.undef

/-- Write field `k` of the object node `baseId` (`base[k] = v`), in place. -/
def setBaseField (h : Heap) (baseId : Nat) (k : String) (v : GVal) : Heap :=
  match h[baseId]? with
  | some (.obj fs) => h.set baseId (.obj (setFieldG fs k v))
  | _ => h

mutual

/-- `mergeDeep` on the heap, mutating the node `baseId`.  A falsy or
non-object patch is a no-op; an object (or array, via its index keys) patch
is applied key by key. -/
def mergeDeepH (h : Heap) (baseId : Nat) (patch : GVal) (fuel : Nat) :
    Option Heap :=
  match fuel with
  | 0 => none
  | f + 1 =>
    match patch with
    | .ref p =>
      match h[p]? with
      | some (.arr xs) => mergeFieldsH h baseId (gArrFields xs) f
      | some (.obj pfs) => mergeFieldsH h baseId pfs f
      | none => none
    | _ => some h
termination_by (fuel, 0)

/-- The key loop of the heap-level `mergeDeep`. -/
def mergeFieldsH (h : Heap) (baseId : Nat) (pfs : List (String × GVal))
    (fuel : Nat) : Option Heap :=
  match pfs with
  | [] => some h
  | (k, pv) :: rest =>
    match mergeOneH h baseId k pv fuel with
    | some h1 => mergeFieldsH h1 baseId rest fuel
    | none => none
termination_by (fuel, 1 + pfs.length)

/-- One key of the heap-level `mergeDeep`: skip `undefined`; an array patch
value is sliced into a fresh node that replaces the base value; a mapping
patch value meeting a mapping base value is merged into a freshly allocated
copy `{...bv}` which is then installed; anything else overwrites. -/
def mergeOneH (h : Heap) (baseId : Nat) (k : String) (pv : GVal) (fuel : Nat) :
    Option Heap :=
  if pv = GVal.undef then some h
  else
    match pv with
    | .ref p =>
      match h[p]? with
      | some (.arr xs) =>
        let h1 := h ++ [HNode.arr xs]
        some (setBaseField h1 baseId k (.ref h.length))
      | some (.obj _) =>
        match baseField h baseId k with
        | .ref b =>
          match h[b]? with
          | some (.obj bfs) =>
            let copyId := h.length
            let h1 := h ++ [HNode.obj bfs]
            match mergeDeepH h1 copyId pv fuel with
            | some h2 => some (setBaseField h2 baseId k (.ref copyId))
            | none => none
          | _ => some (setBaseField h baseId k pv)
        | _ => some (setBaseField h baseId k pv)
      | none => none
    | _ => some (setBaseField h baseId k pv)
termination_by (fuel, 1)

end

/-- `DataClass.copy` on the heap: `base = {...instance}` is a fresh shallow
node, `merged = mergeDeep(base, patch)` mutates only that fresh node (and
fresh copies it allocates), and finally a new instance is constructed with
the class defaults and receives the merged fields via `Object.assign` before
being sealed.  Returns the extended heap and the id of the new record. -/
def copyOpH (h : Heap) (instId : Nat) (patch : GVal)
    (defaults : List (String × GVal)) (fuel : Nat) : Option (Heap × Nat) :=
  match h[instId]? with
  | some (.obj fs) =>
    let baseId := h.length
    let h1 := h ++ [HNode.obj fs]
    match mergeDeepH h1 baseId patch fuel with
    | some h2 =>
      match h2[baseId]? with
      | some (.obj mfs) =>
        let newFields := mfs.foldl (fun t p => setFieldG t p.1 p.2) defaults
        some (h2 ++ [HNode.obj newFields], h2.length)
      | _ => none
    | none => none
  | _ => none

/-- C7: the non-mutating copy path.  On the heap holding the record
`{name: "Alice", age: 30}` (node 0) and the patch `{age: 31}` (node 1),
`copy` allocates a shallow base copy (node 2), merges the patch into it, and
assigns the result onto a fresh sealed instance (node 3): the new record
canonicalizes to `{"age":31,"name":"Alice"}` while the original node still
canonicalizes to `{"age":30,"name":"Alice"}`, exactly as before the
operation. -/
theorem copy_frame_effect :
    copyOpH [HNode.obj [("name", GVal.str "Alice"), ("age", GVal.num 30)],
        HNode.obj [("age", GVal.num 31)]] 0 (GVal.ref 1)
        [("name", GVal.str "Anon"), ("age", GVal.num 0)] 5
      = some ([HNode.obj [("name", GVal.str "Alice"), ("age", GVal.num 30)],
          HNode.obj [("age", GVal.num 31)],
          HNode.obj [("name", GVal.str "Alice"), ("age", GVal.num 31)],
          HNode.obj [("name", GVal.str "Alice"), ("age", GVal.num 31)]], 3)
    ∧ stringifyH [HNode.obj [("name", GVal.str "Alice"), ("age", GVal.num 30)],
          HNode.obj [("age", GVal.num 31)],
          HNode.obj [("name", GVal.str "Alice"), ("age", GVal.num 31)],
          HNode.obj [("name", GVal.str "Alice"), ("age", GVal.num 31)]] [] 5
          (GVal.ref 3)
        = SRes.ok "\x7b\"age\":31,\"name\":\"Alice\"\x7d"
    ∧ stringifyH [HNode.obj [("name", GVal.str "Alice"), ("age", GVal.num 30)],
          HNode.obj [("age", GVal.num 31)],
          HNode.obj [("name", GVal.str "Alice"), ("age", GVal.num 31)],
          HNode.obj [("name", GVal.str "Alice"), ("age", GVal.num 31)]] [] 5
          (GVal.ref 0)
        = SRes.ok "\x7b\"age\":30,\"name\":\"Alice\"\x7d"
    ∧ stringifyH [HNode.obj [("name", GVal.str "Alice"), ("age", GVal.num 30)],
          HNode.obj [("age", GVal.num 31)]] [] 5 (GVal.ref 0)
        = SRes.ok "\x7b\"age\":30,\"name\":\"Alice\"\x7d" := by
  refine ⟨?_, ?_, ?_, ?_⟩
  · simp +decide [copyOpH, mergeDeepH, mergeFieldsH, mergeOneH, setBaseField,
      setFieldG, baseField, gArrFields, List.lookup, List.set]
  · simp +decide [stringifyH, stringifyEntries, List.lookup, List.insertionSort,
      List.orderedInsert, primStr, jsonQuote, intStr, natStr, natStrAux, escapeChar]
  · simp +decide [stringifyH, stringifyEntries, List.lookup, List.insertionSort,
      List.orderedInsert, primStr, jsonQuote, intStr, natStr, natStrAux, escapeChar]
  · simp +decide [stringifyH, stringifyEntries, List.lookup, List.insertionSort,
      List.orderedInsert, primStr, jsonQuote, intStr, natStr, natStrAux, escapeChar]

theorem sizeFields_le_of_mem {p : String × Val} {fs : List (String × Val)}
    (h : p ∈ fs) : Val.size p.2 ≤ Val.sizeFields fs := by
  induction fs with
  | nil => cases h
  | cons q fs ih =>
    rcases List.mem_cons.mp h with h | h
    · subst h; simp [Val.sizeFields]
    · have := ih h; simp [Val.sizeFields]; omega

/-- `deepClone` from `utils.ts` on the pure tree embedding: primitives are
returned unchanged, arrays map the clone over their elements, objects rebuild
each field in `Object.keys` order. -/
def deepClone (v : Val) : Val :=
  match v with
  | .arr xs => .arr (xs.attach.map fun x => deepClone x.1)
  | .obj fs => .obj (fs.attach.map fun p => (p.1.1, deepClone p.1.2))
  | _ => v
termination_by Val.size v
decreasing_by
  · have := sizeList_lt_of_mem x.2
    simp [Val.size]
    omega
  · have := sizeFields_le_of_mem p.2
    simp [Val.size]
    omega

theorem deepClone_eq_self : ∀ v : Val, deepClone v = v := by
  have main : ∀ (n : Nat) (v : Val), Val.size v ≤ n → deepClone v = v := by
    intro n
    induction n with
    | zero =>
      intro v h
      have := Val.size_pos v
      omega
    | succ n ih =>
      intro v hv
      match v with
      | .null => simp only [deepClone]
      | Val.undef => simp only [deepClone]
      | .bool b => simp only [deepClone]
      | .num m => simp only [deepClone]
      | .str s => simp only [deepClone]
      | .arr xs =>
        rw [deepClone]
        congr 1
        have hpt : ∀ x ∈ xs.attach, deepClone x.1 = x.1 := by
          intro x _
          apply ih
          have h1 := sizeList_lt_of_mem x.2
          simp only [Val.size] at hv
          omega
        rw [List.map_congr_left hpt]
        simp
      | .obj fs =>
        rw [deepClone]
        congr 1
        have hpt : ∀ p ∈ fs.attach,
            (p.1.1, deepClone p.1.2) = (p.1 : String × Val) := by
          intro p _
          have h1 := sizeFields_le_of_mem p.2
          rw [ih p.1.2 (by simp only [Val.size] at hv; omega)]
        rw [List.map_congr_left hpt]
        simp
  intro v
  exact main (Val.size v) v le_rfl

theorem deepEqual_refl (v : Val) : deepEqual v v = true := by
  rw [deepEqual.eq_def]
  simp

mutual

/-- Read a heap value back as a pure tree, with fuel bounding the dereference
depth; succeeds exactly on values whose reachable graph is acyclic and
shallower than the fuel. -/
def readback (h : Heap) : Nat → GVal → Option Val
  | _, .null => some .null
  | _, GVal.undef => some Val.undef
  | _, .bool b => some (.bool b)
  | _, .num n => some (.num n)
  | _, .str s => some (.str s)
  | 0, .ref _ => none
  | f + 1, .ref i =>
    match h[i]? with
    | some (.arr xs) => (readbackList h f xs).map Val.arr
    | some (.obj fs) => (readbackFields h f fs).map Val.obj
    | none => none
termination_by fuel v => (fuel, 0, 0)

def readbackList (h : Heap) : Nat → List GVal → Option (List Val)
  | _, [] => some []
  | fuel, x :: xs =>
    match readback h fuel x with
    | some px => (readbackList h fuel xs).map (px :: ·)
    | none => none
termination_by fuel xs => (fuel, 1, xs.length)

def readbackFields (h : Heap) :
    Nat → List (String × GVal) → Option (List (String × Val))
  | _, [] => some []
  | fuel, (k, x) :: fs =>
    match readback h fuel x with
    | some px => (readbackFields h fuel fs).map ((k, px) :: ·)
    | none => none
termination_by fuel fs => (fuel, 1, fs.length)

end

mutual

/-- `deepClone` from `utils.ts` at the heap level: primitives are returned
unchanged (never duplicated), every array and object node reached is rebuilt
as a freshly allocated node whose contents are the clones of the
children. -/
def deepCloneH (h : Heap) : Nat → GVal → Option (GVal × Heap)
  | _, .null => some (.null, h)
  | _, GVal.undef => some (GVal.undef, h)
  | _, .bool b => some (.bool b, h)
  | _, .num n => some (.num n, h)
  | _, .str s => some (.str s, h)
  | 0, .ref _ => none
  | f + 1, .ref i =>
    match h[i]? with
    | some (.arr xs) =>
      match deepCloneListH h f xs with
      | some (ys, h1) => some (.ref h1.length, h1 ++ [.arr ys])
      | none => none
    | some (.obj fs) =>
      match deepCloneFieldsH h f fs with
      | some (gs, h1) => some (.ref h1.length, h1 ++ [.obj gs])
      | none => none
    | none => none
termination_by fuel v => (fuel, 0, 0)

def deepCloneListH (h : Heap) : Nat → List GVal → Option (List GVal × Heap)
  | _, [] => some ([], h)
  | fuel, x :: xs =>
    match deepCloneH h fuel x with
    | some (y, h1) =>
      match deepCloneListH h1 fuel xs with
      | some (ys, h2) => some (y :: ys, h2)
      | none => none
    | none => none
termination_by fuel xs => (fuel, 1, xs.length)

def deepCloneFieldsH (h : Heap) :
    Nat → List (String × GVal) → Option (List (String × GVal) × Heap)
  | _, [] => some ([], h)
  | fuel, (k, x) :: fs =>
    match deepCloneH h fuel x with
    | some (y, h1) =>
      match deepCloneFieldsH h1 fuel fs with
      | some (ys, h2) => some ((k, y) :: ys, h2)
      | none => none
    | none => none
termination_by fuel fs => (fuel, 1, fs.length)

end

/-- All references inside a heap value point at or beyond node `n`. -/
def refsBound (n : Nat) : GVal → Prop
  | .ref i => n ≤ i
  | _ => True

/-- All references inside a node point at or beyond `n`. -/
def nodeRefsBound (n : Nat) : HNode → Prop
  | .arr xs => ∀ x ∈ xs, refsBound n x
  | .obj fs => ∀ p ∈ fs, refsBound n p.2

/-- Every node of `ext` references only the region at or beyond `n` (the
clone region is closed: fresh nodes point only at fresh nodes). -/
def extClosed (n : Nat) (ext : List HNode) : Prop :=
  ∀ nd ∈ ext, nodeRefsBound n nd

theorem refsBound_mono {m n : Nat} (hmn : m ≤ n) {v : GVal}
    (h : refsBound n v) : refsBound m v := by
  cases v <;> simp [refsBound] at h ⊢ <;> omega

theorem nodeRefsBound_mono {m n : Nat} (hmn : m ≤ n) {nd : HNode}
    (h : nodeRefsBound n nd) : nodeRefsBound m nd := by
  cases nd with
  | arr xs =>
    intro x hx
    exact refsBound_mono hmn (h x hx)
  | obj fs =>
    intro p hp
    exact refsBound_mono hmn (h p hp)

theorem extClosed_mono {m n : Nat} (hmn : m ≤ n) {ext : List HNode}
    (h : extClosed n ext) : extClosed m ext :=
  fun nd hnd => nodeRefsBound_mono hmn (h nd hnd)

theorem extClosed_append {n : Nat} {e1 e2 : List HNode} (h1 : extClosed n e1)
    (h2 : extClosed n e2) : extClosed n (e1 ++ e2) := by
  intro nd hnd
  rcases List.mem_append.mp hnd with h | h
  · exact h1 nd h
  · exact h2 nd h

/-- Growing the heap on the right preserves successful readback. -/
theorem readback_mono (fuel : Nat) :
    ∀ (h ext : Heap),
      (∀ v pv, readback h fuel v = some pv → readback (h ++ ext) fuel v = some pv)
      ∧ (∀ xs pxs, readbackList h fuel xs = some pxs →
          readbackList (h ++ ext) fuel xs = some pxs)
      ∧ (∀ fs pfs, readbackFields h fuel fs = some pfs →
          readbackFields (h ++ ext) fuel fs = some pfs) := by
  induction fuel with
  | zero =>
    intro h ext
    have hval : ∀ v pv, readback h 0 v = some pv → readback (h ++ ext) 0 v = some pv := by
      intro v pv hv
      cases v with
      | ref i => rw [readback] at hv; cases hv
      | null => rw [readback] at hv ⊢; exact hv
      | undef => rw [readback] at hv ⊢; exact hv
      | bool b => rw [readback] at hv ⊢; exact hv
      | num n => rw [readback] at hv ⊢; exact hv
      | str s => rw [readback] at hv ⊢; exact hv
    refine ⟨hval, ?_, ?_⟩
    · intro xs
      induction xs with
      | nil => intro pxs hx; rw [readbackList] at hx ⊢; exact hx
      | cons x xs ihx =>
        intro pxs hx
        rw [readbackList] at hx ⊢
        rcases hhead : readback h 0 x with _ | px
        · simp only [hhead] at hx
          cases hx
        · simp only [hhead] at hx
          simp only [hval x px hhead]
          rcases htl : readbackList h 0 xs with _ | ptl
          · simp only [htl, Option.map] at hx
            cases hx
          · simp only [htl, Option.map] at hx
            simp only [ihx ptl htl, Option.map]
            exact hx
    · intro fs
      induction fs with
      | nil => intro pfs hf; rw [readbackFields] at hf ⊢; exact hf
      | cons p fs ihf =>
        intro pfs hf
        rcases p with ⟨k, x⟩
        rw [readbackFields] at hf ⊢
        rcases hhead : readback h 0 x with _ | px
        · simp only [hhead] at hf
          cases hf
        · simp only [hhead] at hf
          simp only [hval x px hhead]
          rcases htl : readbackFields h 0 fs with _ | ptl
          · simp only [htl, Option.map] at hf
            cases hf
          · simp only [htl, Option.map] at hf
            simp only [ihf ptl htl, Option.map]
            exact hf
  | succ f ih =>
    intro h ext
    have hval : ∀ v pv, readback h (f + 1) v = some pv →
        readback (h ++ ext) (f + 1) v = some pv := by
      intro v pv hv
      cases v with
      | ref i =>
        rw [readback] at hv ⊢
        rcases hnode : h[i]? with _ | nd
        · simp only [hnode] at hv
          cases hv
        · have hlen : i < h.length := by
            by_contra hge
            rw [List.getElem?_eq_none (by omega)] at hnode
            cases hnode
          have hnode2 : (h ++ ext)[i]? = some nd := by
            rw [List.getElem?_append_left hlen]
            exact hnode
          simp only [hnode] at hv
          simp only [hnode2]
          cases nd with
          | arr xs =>
            rcases hxs : readbackList h f xs with _ | pxs
            · simp only [hxs, Option.map] at hv
              cases hv
            · simp only [hxs, Option.map] at hv
              simp only [(ih h ext).2.1 xs pxs hxs, Option.map]
              exact hv
          | obj fs =>
            rcases hfs : readbackFields h f fs with _ | pfs
            · simp only [hfs, Option.map] at hv
              cases hv
            · simp only [hfs, Option.map] at hv
              simp only [(ih h ext).2.2 fs pfs hfs, Option.map]
              exact hv
      | null => rw [readback] at hv ⊢; exact hv
      | undef => rw [readback] at hv ⊢; exact hv
      | bool b => rw [readback] at hv ⊢; exact hv
      | num n => rw [readback] at hv ⊢; exact hv
      | str s => rw [readback] at hv ⊢; exact hv
    refine ⟨hval, ?_, ?_⟩
    · intro xs
      induction xs with
      | nil => intro pxs hx; rw [readbackList] at hx ⊢; exact hx
      | cons x xs ihx =>
        intro pxs hx
        rw [readbackList] at hx ⊢
        rcases hhead : readback h (f + 1) x with _ | px
        · simp only [hhead] at hx
          cases hx
        · simp only [hhead] at hx
          simp only [hval x px hhead]
          rcases htl : readbackList h (f + 1) xs with _ | ptl
          · simp only [htl, Option.map] at hx
            cases hx
          · simp only [htl, Option.map] at hx
            simp only [ihx ptl htl, Option.map]
            exact hx
    · intro fs
      induction fs with
      | nil => intro pfs hf; rw [readbackFields] at hf ⊢; exact hf
      | cons p fs ihf =>
        intro pfs hf
        rcases p with ⟨k, x⟩
        rw [readbackFields] at hf ⊢
        rcases hhead : readback h (f + 1) x with _ | px
        · simp only [hhead] at hf
          cases hf
        · simp only [hhead] at hf
          simp only [hval x px hhead]
          rcases htl : readbackFields h (f + 1) fs with _ | ptl
          · simp only [htl, Option.map] at hf
            cases hf
          · simp only [htl, Option.map] at hf
            simp only [ihf ptl htl, Option.map]
            exact hf

/-- Setting a slot at or beyond the prefix touches only the extension. -/
theorem append_set_of_le (h ext : Heap) (j : Nat) (nd : HNode)
    (hj : h.length ≤ j) :
    (h ++ ext).set j nd = h ++ ext.set (j - h.length) nd := by
  induction h generalizing j with
  | nil => simp
  | cons a t ih =>
    cases j with
    | zero => simp at hj
    | succ j =>
      simp only [List.cons_append, List.set_cons_succ, List.length_cons] at hj ⊢
      rw [ih j (by omega)]
      simp [Nat.succ_sub_succ]

/-- The element loop of the heap-level deep clone, for a fixed fuel level:
if every value clones correctly at this fuel, so does every element list. -/
theorem deepCloneListH_step (fuel : Nat)
    (hval : ∀ (h : Heap) (v : GVal) (pv : Val), readback h fuel v = some pv →
      ∃ v' ext, deepCloneH h fuel v = some (v', h ++ ext)
        ∧ readback (h ++ ext) fuel v' = some pv
        ∧ refsBound h.length v'
        ∧ extClosed h.length ext) :
    ∀ (xs : List GVal) (h : Heap) (pxs : List Val),
      readbackList h fuel xs = some pxs →
      ∃ ys ext, deepCloneListH h fuel xs = some (ys, h ++ ext)
        ∧ readbackList (h ++ ext) fuel ys = some pxs
        ∧ (∀ y ∈ ys, refsBound h.length y)
        ∧ extClosed h.length ext := by
  intro xs
  induction xs with
  | nil =>
    intro h pxs hx
    rw [readbackList] at hx
    refine ⟨[], [], ?_, ?_, ?_, ?_⟩
    · rw [deepCloneListH, List.append_nil]
    · rw [List.append_nil, readbackList]; exact hx
    · intro y hy; cases hy
    · exact fun nd hnd => absurd hnd (List.not_mem_nil nd)
  | cons x xs ihx =>
    intro h pxs hx
    rw [readbackList] at hx
    rcases hhead : readback h fuel x with _ | px
    · simp only [hhead] at hx
      cases hx
    · simp only [hhead] at hx
      rcases htl : readbackList h fuel xs with _ | ptl
      · simp only [htl, Option.map] at hx
        cases hx
      · simp only [htl, Option.map] at hx
        injection hx with hx
        subst hx
        obtain ⟨y, ext1, hc1, hr1, hb1, hcl1⟩ := hval h x px hhead
        have htl2 : readbackList (h ++ ext1) fuel xs = some ptl :=
          (readback_mono fuel h ext1).2.1 xs ptl htl
        obtain ⟨ys, ext2, hc2, hr2, hb2, hcl2⟩ := ihx (h ++ ext1) ptl htl2
        have hlen1 : h.length ≤ (h ++ ext1).length := by
          simp [List.length_append]
        refine ⟨y :: ys, ext1 ++ ext2, ?_, ?_, ?_, ?_⟩
        · rw [deepCloneListH]
          simp only [hc1, hc2, List.append_assoc]
        · rw [← List.append_assoc, readbackList]
          have hy2 : readback ((h ++ ext1) ++ ext2) fuel y = some px :=
            (readback_mono fuel (h ++ ext1) ext2).1 y px hr1
          simp only [hy2, hr2, Option.map]
        · intro z hz
          rcases List.mem_cons.mp hz with hz | hz
          · subst hz; exact hb1
          · exact refsBound_mono hlen1 (hb2 z hz)
        · exact extClosed_append hcl1 (extClosed_mono hlen1 hcl2)

/-- The field loop of the heap-level deep clone, analogous to
`deepCloneListH_step`. -/
theorem deepCloneFieldsH_step (fuel : Nat)
    (hval : ∀ (h : Heap) (v : GVal) (pv : Val), readback h fuel v = some pv →
      ∃ v' ext, deepCloneH h fuel v = some (v', h ++ ext)
        ∧ readback (h ++ ext) fuel v' = some pv
        ∧ refsBound h.length v'
        ∧ extClosed h.length ext) :
    ∀ (fs : List (String × GVal)) (h : Heap) (pfs : List (String × Val)),
      readbackFields h fuel fs = some pfs →
      ∃ gs ext, deepCloneFieldsH h fuel fs = some (gs, h ++ ext)
        ∧ readbackFields (h ++ ext) fuel gs = some pfs
        ∧ (∀ p ∈ gs, refsBound h.length p.2)
        ∧ extClosed h.length ext := by
  intro fs
  induction fs with
  | nil =>
    intro h pfs hf
    rw [readbackFields] at hf
    refine ⟨[], [], ?_, ?_, ?_, ?_⟩
    · rw [deepCloneFieldsH, List.append_nil]
    · rw [List.append_nil, readbackFields]; exact hf
    · intro p hp; cases hp
    · exact fun nd hnd => absurd hnd (List.not_mem_nil nd)
  | cons p fs ihf =>
    intro h pfs hf
    rcases p with ⟨k, x⟩
    rw [readbackFields] at hf
    rcases hhead : readback h fuel x with _ | px
    · simp only [hhead] at hf
      cases hf
    · simp only [hhead] at hf
      rcases htl : readbackFields h fuel fs with _ | ptl
      · simp only [htl, Option.map] at hf
        cases hf
      · simp only [htl, Option.map] at hf
        injection hf with hf
        subst hf
        obtain ⟨y, ext1, hc1, hr1, hb1, hcl1⟩ := hval h x px hhead
        have htl2 : readbackFields (h ++ ext1) fuel fs = some ptl :=
          (readback_mono fuel h ext1).2.2 fs ptl htl
        obtain ⟨gs, ext2, hc2, hr2, hb2, hcl2⟩ := ihf (h ++ ext1) ptl htl2
        have hlen1 : h.length ≤ (h ++ ext1).length := by
          simp [List.length_append]
        refine ⟨(k, y) :: gs, ext1 ++ ext2, ?_, ?_, ?_, ?_⟩
        · rw [deepCloneFieldsH]
          simp only [hc1, hc2, List.append_assoc]
        · rw [← List.append_assoc, readbackFields]
          have hy2 : readback ((h ++ ext1) ++ ext2) fuel y = some px :=
            (readback_mono fuel (h ++ ext1) ext2).1 y px hr1
          simp only [hy2, hr2, Option.map]
        · intro q hq
          rcases List.mem_cons.mp hq with hq | hq
          · subst hq; exact hb1
          · exact refsBound_mono hlen1 (hb2 q hq)
        · exact extClosed_append hcl1 (extClosed_mono hlen1 hcl2)

/-- Heap-level deep clone specification: whenever the source value reads back
(its reachable graph is acyclic within the fuel), the clone succeeds, only
appends fresh nodes to the heap, reads back to the same pure tree, returns
primitives unchanged without allocating, returns a fresh reference for any
composite, and the freshly allocated region references only itself. -/
theorem deepCloneH_spec (fuel : Nat) :
    ∀ (h : Heap) (v : GVal) (pv : Val), readback h fuel v = some pv →
      ∃ v' ext, deepCloneH h fuel v = some (v', h ++ ext)
        ∧ readback (h ++ ext) fuel v' = some pv
        ∧ refsBound h.length v'
        ∧ extClosed h.length ext
        ∧ (isPrimG v = true → v' = v ∧ ext = []) := by
  induction fuel with
  | zero =>
    intro h v pv hv
    cases v with
    | ref i => rw [readback] at hv; cases hv
    | null =>
      exact ⟨.null, [], by rw [deepCloneH, List.append_nil],
        by rw [List.append_nil]; exact hv, trivial,
        fun nd hnd => absurd hnd (List.not_mem_nil nd), fun _ => ⟨rfl, rfl⟩⟩
    | undef =>
      exact ⟨GVal.undef, [], by rw [deepCloneH, List.append_nil],
        by rw [List.append_nil]; exact hv, trivial,
        fun nd hnd => absurd hnd (List.not_mem_nil nd), fun _ => ⟨rfl, rfl⟩⟩
    | bool b =>
      exact ⟨.bool b, [], by rw [deepCloneH, List.append_nil],
        by rw [List.append_nil]; exact hv, trivial,
        fun nd hnd => absurd hnd (List.not_mem_nil nd), fun _ => ⟨rfl, rfl⟩⟩
    | num n =>
      exact ⟨.num n, [], by rw [deepCloneH, List.append_nil],
        by rw [List.append_nil]; exact hv, trivial,
        fun nd hnd => absurd hnd (List.not_mem_nil nd), fun _ => ⟨rfl, rfl⟩⟩
    | str s =>
      exact ⟨.str s, [], by rw [deepCloneH, List.append_nil],
        by rw [List.append_nil]; exact hv, trivial,
        fun nd hnd => absurd hnd (List.not_mem_nil nd), fun _ => ⟨rfl, rfl⟩⟩
  | succ f ih =>
    have ihw : ∀ (h : Heap) (v : GVal) (pv : Val), readback h f v = some pv →
        ∃ v' ext, deepCloneH h f v = some (v', h ++ ext)
          ∧ readback (h ++ ext) f v' = some pv
          ∧ refsBound h.length v'
          ∧ extClosed h.length ext := by
      intro h v pv hv
      obtain ⟨v', ext, h1, h2, h3, h4, _⟩ := ih h v pv hv
      exact ⟨v', ext, h1, h2, h3, h4⟩
    intro h v pv hv
    cases v with
    | null =>
      exact ⟨.null, [], by rw [deepCloneH, List.append_nil],
        by rw [List.append_nil]; exact hv, trivial,
        fun nd hnd => absurd hnd (List.not_mem_nil nd), fun _ => ⟨rfl, rfl⟩⟩
    | undef =>
      exact ⟨GVal.undef, [], by rw [deepCloneH, List.append_nil],
        by rw [List.append_nil]; exact hv, trivial,
        fun nd hnd => absurd hnd (List.not_mem_nil nd), fun _ => ⟨rfl, rfl⟩⟩
    | bool b =>
      exact ⟨.bool b, [], by rw [deepCloneH, List.append_nil],
        by rw [List.append_nil]; exact hv, trivial,
        fun nd hnd => absurd hnd (List.not_mem_nil nd), fun _ => ⟨rfl, rfl⟩⟩
    | num n =>
      exact ⟨.num n, [], by rw [deepCloneH, List.append_nil],
        by rw [List.append_nil]; exact hv, trivial,
        fun nd hnd => absurd hnd (List.not_mem_nil nd), fun _ => ⟨rfl, rfl⟩⟩
    | str s =>
      exact ⟨.str s, [], by rw [deepCloneH, List.append_nil],
        by rw [List.append_nil]; exact hv, trivial,
        fun nd hnd => absurd hnd (List.not_mem_nil nd), fun _ => ⟨rfl, rfl⟩⟩
    | ref i =>
      rw [readback] at hv
      rcases hnode : h[i]? with _ | nd
      · simp only [hnode] at hv
        cases hv
      · have hlen : i < h.length := by
          by_contra hge
          rw [List.getElem?_eq_none (by omega)] at hnode
          cases hnode
        simp only [hnode] at hv
        cases nd with
        | arr xs =>
          rcases hxs : readbackList h f xs with _ | pxs
          · simp only [hxs, Option.map] at hv
            cases hv
          · simp only [hxs, Option.map] at hv
            injection hv with hv
            subst hv
            obtain ⟨ys, ext1, hc, hr, hb, hcl⟩ :=
              deepCloneListH_step f ihw xs h pxs hxs
            have hlen1 : h.length ≤ (h ++ ext1).length := by
              simp [List.length_append]
            refine ⟨.ref (h ++ ext1).length, ext1 ++ [.arr ys], ?_, ?_, ?_, ?_, ?_⟩
            · rw [deepCloneH]
              simp only [hnode, hc, List.append_assoc]
            · rw [← List.append_assoc, readback]
              rw [List.getElem?_concat_length]
              have hys : readbackList ((h ++ ext1) ++ [HNode.arr ys]) f ys = some pxs :=
                (readback_mono f (h ++ ext1) [HNode.arr ys]).2.1 ys pxs hr
              simp only [hys, Option.map]
            · simp only [refsBound]
              omega
            · apply extClosed_append hcl
              intro nd hnd
              rcases List.mem_singleton.mp hnd with rfl
              intro y hy
              exact hb y hy
            · intro hcontra
              cases hcontra
        | obj fs =>
          rcases hfs : readbackFields h f fs with _ | pfs
          · simp only [hfs, Option.map] at hv
            cases hv
          · simp only [hfs, Option.map] at hv
            injection hv with hv
            subst hv
            obtain ⟨gs, ext1, hc, hr, hb, hcl⟩ :=
              deepCloneFieldsH_step f ihw fs h pfs hfs
            have hlen1 : h.length ≤ (h ++ ext1).length := by
              simp [List.length_append]
            refine ⟨.ref (h ++ ext1).length, ext1 ++ [.obj gs], ?_, ?_, ?_, ?_, ?_⟩
            · rw [deepCloneH]
              simp only [hnode, hc, List.append_assoc]
            · rw [← List.append_assoc, readback]
              rw [List.getElem?_concat_length]
              have hgs : readbackFields ((h ++ ext1) ++ [HNode.obj gs]) f gs = some pfs :=
                (readback_mono f (h ++ ext1) [HNode.obj gs]).2.2 gs pfs hr
              simp only [hgs, Option.map]
            · simp only [refsBound]
              omega
            · apply extClosed_append hcl
              intro nd hnd
              rcases List.mem_singleton.mp hnd with rfl
              intro p hp
              exact hb p hp
            · intro hcontra
              cases hcontra

/-- C9: deep clone satisfies `deepEqual(a, deepClone(a))` for every acyclic
value; at the heap level the clone of any readable value allocates only fresh
nodes (the returned reference and every node of the extension lie at or
beyond the old heap's end, and the fresh region references only itself),
primitive leaves are returned unchanged with no allocation, the clone reads
back to the same tree as the original, and mutating any slot in the fresh
region — in particular any of the clone's sequence/mapping nodes — leaves
the original value's readback untouched. -/
theorem deepClone_semantics :
    (∀ v : Val, deepEqual v (deepClone v) = true)
    ∧ (∀ (h : Heap) (fuel : Nat) (v : GVal) (pv : Val),
        readback h fuel v = some pv →
        ∃ v' ext,
          deepCloneH h fuel v = some (v', h ++ ext)
          ∧ readback (h ++ ext) fuel v' = some pv
          ∧ refsBound h.length v'
          ∧ extClosed h.length ext
          ∧ (isPrimG v = true → v' = v ∧ ext = [])
          ∧ (∀ (j : Nat) (nd : HNode), h.length ≤ j →
              readback ((h ++ ext).set j nd) fuel v = some pv)) := by
  constructor
  · intro v
    rw [deepClone_eq_self v]
    exact deepEqual_refl v
  · intro h fuel v pv hv
    obtain ⟨v', ext, h1, h2, h3, h4, h5⟩ := deepCloneH_spec fuel h v pv hv
    refine ⟨v', ext, h1, h2, h3, h4, h5, ?_⟩
    intro j nd hj
    by_cases hlt : j < (h ++ ext).length
    · rw [append_set_of_le h ext j nd hj]
      exact (readback_mono fuel h (ext.set (j - h.length) nd)).1 v pv hv
    · rw [List.set_eq_of_length_le (by omega)]
      exact (readback_mono fuel h ext).1 v pv hv

/-- Witness for `deepClone_semantics`: cloning the heap value `[1]`. -/
theorem deepClone_semantics_witness :
    deepEqual (Val.arr [Val.num 1]) (deepClone (Val.arr [Val.num 1])) = true
    ∧ ∃ v' ext,
        deepCloneH [HNode.arr [GVal.num 1]] 2 (GVal.ref 0)
          = some (v', [HNode.arr [GVal.num 1]] ++ ext)
        ∧ readback ([HNode.arr [GVal.num 1]] ++ ext) 2 v'
          = some (Val.arr [Val.num 1]) := by
  constructor
  · exact deepClone_semantics.1 _
  · obtain ⟨v', ext, h1, h2, _⟩ := deepClone_semantics.2 [HNode.arr [GVal.num 1]] 2
      (GVal.ref 0) (Val.arr [Val.num 1])
      (by simp [readback, readbackList])
    exact ⟨v', ext, h1, h2⟩

end Dataclasses
